import Mathlib

/-!
Verification of the candidate-generation pipeline of `candidate_generator.cpp`.

Strings are modelled as byte lists (`List Nat`, each entry a byte value); the
`std::set<std::string>` candidate collection is modelled as a list kept
strictly sorted under byte-wise lexicographic order by an ordered insert,
which is exactly the iteration/uniqueness behaviour of `std::set` with the
default `std::less<std::string>` comparator.
-/

/-- A string as its byte sequence (the program only manipulates bytes). -/
abbrev Str := List Nat

/-- The candidate collection: the model of `std::set<std::string>`. -/
abbrev CandSet := List Str

/-- Byte sequence of a Lean string literal (used for concrete ASCII inputs). -/
def bytes (s : String) : Str := s.data.map Char.toNat

/-- Byte-wise lexicographic strict comparison, as `std::less<std::string>`
(`char_traits<char>::compare` on unsigned bytes, shorter prefix first). -/
def lexLt : Str → Str → Bool
  | [], [] => false
  | [], _ :: _ => true
  | _ :: _, [] => false
  | a :: as, b :: bs => if a < b then true else if b < a then false else lexLt as bs

/-- Ordered insert into the sorted duplicate-free list: the model of
`std::set::insert` (no-op when the element is already present). -/
def insertStr (s : Str) : CandSet → CandSet
  | [] => [s]
  | t :: ts =>
    if lexLt s t then s :: t :: ts
    else if lexLt t s then t :: insertStr s ts
    else t :: ts

/-- Model of `is_printable` from the source: `std::all_of` over the string with
`std::isprint` (true on bytes 0x20..0x7E in the C locale); vacuously true
on the empty string. -/
def is_printable (s : Str) : Bool := s.all (fun c => 32 ≤ c && c ≤ 126)

/-- The guard used at every call site of the generators:
`!(!is_printable(w) || w.empty())`, i.e. printable and non-empty. -/
def usable (s : Str) : Bool := is_printable s && !s.isEmpty

/-- Model of `std::toupper` in the C locale on a printable byte: lowercase letters
map to uppercase, everything else is unchanged. -/
def toupperB (c : Nat) : Nat := if 97 ≤ c && c ≤ 122 then c - 32 else c

/-- The capitalization used by `generate_target_combinations`: copy the word
and uppercase its first character (no-op on the empty string). -/
def capitalize : Str → Str
  | [] => []
  | c :: cs => toupperB c :: cs

/-- The fixed suffix table `common_suffixes` from the source. -/
def common_suffixes : List Str :=
  [bytes "2023", bytes "2024", bytes "2025", bytes "!", bytes "1", bytes "123", bytes "#"]

/-- Body of the innermost suffix loop of `generate_target_combinations`
(source lines 60-84): twelve insertions for one (base, info, suffix) triple,
in source order. -/
def combo_suffix_step (base info : Str) (c : CandSet) (x : Str) : CandSet :=
  let c := insertStr (base ++ info ++ x) c
  let c := insertStr (info ++ base ++ x) c
  let c := insertStr (base ++ x ++ info) c
  let c := insertStr (info ++ x ++ base) c
  let cap_info := capitalize info
  let cap_base := capitalize base
  let c := insertStr (cap_base ++ cap_info) c
  let c := insertStr (cap_info ++ cap_base) c
  let c := insertStr (cap_base ++ info) c
  let c := insertStr (info ++ cap_base) c
  let c := insertStr (cap_base ++ cap_info ++ x) c
  let c := insertStr (cap_info ++ cap_base ++ x) c
  let c := insertStr (cap_base ++ info ++ x) c
  insertStr (info ++ cap_base ++ x) c

/-- Body of the target-info loop of `generate_target_combinations`
(source lines 51-85): skip unusable info words, insert the two plain
concatenations, then run the suffix loop. -/
def combo_info_step (base : Str) (c : CandSet) (info : Str) : CandSet :=
  if !(is_printable info) || info.isEmpty then c
  else
    let c := insertStr (base ++ info) c
    let c := insertStr (info ++ base) c
    common_suffixes.foldl (combo_suffix_step base info) c

/-- Body of the final suffix loop of `generate_target_combinations`
(source lines 88-94): base + suffix and capitalized base + suffix. -/
def base_suffix_step (base : Str) (c : CandSet) (x : Str) : CandSet :=
  let c := insertStr (base ++ x) c
  insertStr (capitalize base ++ x) c

/-- Body of the outer base-word loop of `generate_target_combinations`
(source lines 45-95). -/
def combo_base_step (target_info : List Str) (c : CandSet) (base : Str) : CandSet :=
  if !(is_printable base) || base.isEmpty then c
  else
    let c := insertStr base c
    let c := target_info.foldl (combo_info_step base) c
    common_suffixes.foldl (base_suffix_step base) c

/-- Model of `generate_target_combinations` (source lines 37-97). -/
def generate_target_combinations (base_words target_info : List Str) (c : CandSet) : CandSet :=
  base_words.foldl (combo_base_step target_info) c

/-- The effect of one `std::replace` call on a single byte. -/
def replChar (a b c : Nat) : Nat := if c = a then b else c

/-- One `std::replace` call: replace every occurrence of byte `a` by `b`. -/
def replB (a b : Nat) (s : Str) : Str := s.map (replChar a b)

/-- The effect of the twelve sequential `std::replace` calls on one byte. -/
def leetCharCode (c : Nat) : Nat :=
  replChar 84 55 (replChar 116 55 (replChar 73 49 (replChar 105 49 (replChar 83 36
    (replChar 115 36 (replChar 79 48 (replChar 111 48 (replChar 65 64 (replChar 97 64
      (replChar 69 51 (replChar 101 51 c)))))))))))

/-- The leetspeak transform of one word: the twelve sequential `std::replace`
calls of `apply_leetspeak` (source lines 118-129), innermost applied first. -/
def leet_word (s : Str) : Str :=
  replB 84 55 (replB 116 55 (replB 73 49 (replB 105 49 (replB 83 36 (replB 115 36
    (replB 79 48 (replB 111 48 (replB 65 64 (replB 97 64 (replB 69 51 (replB 101 51 s)))))))))))

/-- The substitution table as a single per-character function
(e/E→3, a/A→@, o/O→0, s/S→$, i/I→1, t/T→7, else unchanged), written from
the spec's description of the table. -/
def leetChar (c : Nat) : Nat :=
  if c = 101 ∨ c = 69 then 51
  else if c = 97 ∨ c = 65 then 64
  else if c = 111 ∨ c = 79 then 48
  else if c = 115 ∨ c = 83 then 36
  else if c = 105 ∨ c = 73 then 49
  else if c = 116 ∨ c = 84 then 55
  else c

/-- Body of the word loop of `apply_leetspeak` (source lines 109-135): skip
unusable words, insert the word, insert its leet variant when it differs. -/
def leet_step (c : CandSet) (word : Str) : CandSet :=
  if !(is_printable word) || word.isEmpty then c
  else
    let c := insertStr word c
    let lw := leet_word word
    if lw ≠ word then insertStr lw c else c

/-- Model of `apply_leetspeak` (source lines 105-140). -/
def apply_leetspeak (input_words : List Str) (c : CandSet) : CandSet :=
  input_words.foldl leet_step c

/-- Step 1 of `main` (source lines 225-229): seed the collection with the
printable, non-empty base words. -/
def init_step (c : CandSet) (w : Str) : CandSet :=
  if is_printable w && !w.isEmpty then insertStr w c else c

/-- The generation pipeline of `main` (source lines 217-242): seed with base
words, combine with target info only when the target-info list is non-empty,
then run leetspeak over a snapshot of the current collection. The emitted
sequence (lines 256-259) is exactly this list in order. -/
def run_pipeline (base_words target_info : List Str) : CandSet :=
  let c := base_words.foldl init_step ([] : CandSet)
  let c := if target_info.isEmpty then c
           else generate_target_combinations base_words target_info c
  apply_leetspeak c c


/-! ### Order lemmas for byte-wise lexicographic comparison -/

/-- The collection invariant: strictly sorted under `lexLt` (hence duplicate
free), which is how `std::set` iterates. -/
def SortedSet (c : CandSet) : Prop := List.Pairwise (fun a b => lexLt a b = true) c

theorem lexLt_irrefl (s : Str) : lexLt s s = false := by
  induction s with
  | nil => rfl
  | cons a as ih => simp [lexLt, ih]

theorem lexLt_cons_iff (x y : Nat) (xs ys : Str) :
    lexLt (x :: xs) (y :: ys) = true ↔ x < y ∨ (x = y ∧ lexLt xs ys = true) := by
  simp only [lexLt]
  split_ifs with h h'
  · simp [h]
  · simp; omega
  · have hxy : x = y := by omega
    subst hxy
    simp

theorem lexLt_eq_of_not (a b : Str) (h1 : lexLt a b = false) (h2 : lexLt b a = false) :
    a = b := by
  induction a generalizing b with
  | nil =>
    cases b with
    | nil => rfl
    | cons y ys => simp [lexLt] at h1
  | cons x xs ih =>
    cases b with
    | nil => simp [lexLt] at h2
    | cons y ys =>
      rcases Nat.lt_trichotomy x y with h | h | h
      · have : lexLt (x :: xs) (y :: ys) = true := (lexLt_cons_iff _ _ _ _).mpr (Or.inl h)
        rw [this] at h1; cases h1
      · subst h
        have hxs : lexLt xs ys = false := by
          by_contra hc
          have : lexLt (x :: xs) (x :: ys) = true :=
            (lexLt_cons_iff _ _ _ _).mpr (Or.inr ⟨rfl, by simpa using hc⟩)
          rw [this] at h1; cases h1
        have hys : lexLt ys xs = false := by
          by_contra hc
          have : lexLt (x :: ys) (x :: xs) = true :=
            (lexLt_cons_iff _ _ _ _).mpr (Or.inr ⟨rfl, by simpa using hc⟩)
          rw [this] at h2; cases h2
        rw [ih ys hxs hys]
      · have : lexLt (y :: ys) (x :: xs) = true := (lexLt_cons_iff _ _ _ _).mpr (Or.inl h)
        rw [this] at h2; cases h2

theorem lexLt_trans {a b c : Str} (h1 : lexLt a b = true) (h2 : lexLt b c = true) :
    lexLt a c = true := by
  induction a generalizing b c with
  | nil =>
    cases b with
    | nil => cases h1
    | cons y ys =>
      cases c with
      | nil => cases h2
      | cons z zs => rfl
  | cons x xs ih =>
    cases b with
    | nil => cases h1
    | cons y ys =>
      cases c with
      | nil => cases h2
      | cons z zs =>
        rcases (lexLt_cons_iff _ _ _ _).mp h1 with h | ⟨rfl, hxs⟩ <;>
          rcases (lexLt_cons_iff _ _ _ _).mp h2 with h' | ⟨rfl, hys⟩
        · exact (lexLt_cons_iff _ _ _ _).mpr (Or.inl (Nat.lt_trans h h'))
        · exact (lexLt_cons_iff _ _ _ _).mpr (Or.inl h)
        · exact (lexLt_cons_iff _ _ _ _).mpr (Or.inl h')
        · exact (lexLt_cons_iff _ _ _ _).mpr (Or.inr ⟨rfl, ih hxs hys⟩)

theorem lexLt_asymm {a b : Str} (h : lexLt a b = true) : lexLt b a = false := by
  cases hba : lexLt b a with
  | false => rfl
  | true =>
    exfalso
    have hc := lexLt_trans h hba
    rw [lexLt_irrefl] at hc
    cases hc

theorem lexLt_ne {a b : Str} (h : lexLt a b = true) : a ≠ b := by
  rintro rfl
  rw [lexLt_irrefl] at h
  cases h

/-! ### Properties of the ordered insert -/

theorem mem_insertStr {y s : Str} {c : CandSet} : y ∈ insertStr s c ↔ y = s ∨ y ∈ c := by
  induction c with
  | nil => simp [insertStr]
  | cons t ts ih =>
    simp only [insertStr]
    split_ifs with h1 h2
    · simp [List.mem_cons]
    · simp only [List.mem_cons, ih]
      tauto
    · have hst : s = t :=
        lexLt_eq_of_not s t (by simpa using h1) (by simpa using h2)
      subst hst
      simp [List.mem_cons]

theorem mem_insertStr_self (s : Str) (c : CandSet) : s ∈ insertStr s c :=
  mem_insertStr.mpr (Or.inl rfl)

theorem mem_insertStr_of_mem {y : Str} (s : Str) {c : CandSet} (h : y ∈ c) :
    y ∈ insertStr s c :=
  mem_insertStr.mpr (Or.inr h)

theorem insertStr_sorted {s : Str} {c : CandSet} (h : SortedSet c) :
    SortedSet (insertStr s c) := by
  induction c with
  | nil => simp [insertStr, SortedSet]
  | cons t ts ih =>
    rcases List.pairwise_cons.mp h with ⟨ht, hts⟩
    simp only [insertStr]
    split_ifs with h1 h2
    · refine List.pairwise_cons.mpr ⟨?_, h⟩
      intro u hu
      rcases List.mem_cons.mp hu with rfl | hu'
      · exact h1
      · exact lexLt_trans h1 (ht u hu')
    · refine List.pairwise_cons.mpr ⟨?_, ih hts⟩
      intro u hu
      rcases mem_insertStr.mp hu with rfl | hu'
      · exact h2
      · exact ht u hu'
    · exact h

theorem insertStr_length (s : Str) (c : CandSet) :
    (insertStr s c).length ≤ c.length + 1 := by
  induction c with
  | nil => simp [insertStr]
  | cons t ts ih =>
    simp only [insertStr]
    split_ifs with h1 h2
    · simp
    · simpa using Nat.succ_le_succ ih
    · simp

theorem insertStr_of_mem {s : Str} {c : CandSet} (hs : SortedSet c) (h : s ∈ c) :
    insertStr s c = c := by
  induction c with
  | nil => cases h
  | cons t ts ih =>
    rcases List.pairwise_cons.mp hs with ⟨ht, hts⟩
    rcases List.mem_cons.mp h with rfl | h'
    · simp [insertStr, lexLt_irrefl]
    · have hts' : lexLt t s = true := ht s h'
      simp only [insertStr, lexLt_asymm hts', hts']
      simp [ih hts h']

/-! ### Generic fold lemmas over set-growing steps -/

theorem foldl_mem_mono {α : Type} {f : CandSet → α → CandSet}
    (hf : ∀ c a x, x ∈ c → x ∈ f c a) {x : Str} :
    ∀ (l : List α) (c : CandSet), x ∈ c → x ∈ l.foldl f c := by
  intro l
  induction l with
  | nil => intro c h; simpa using h
  | cons a as ih => intro c h; exact ih (f c a) (hf c a x h)

theorem foldl_mem_of_step {α : Type} {f : CandSet → α → CandSet}
    (hf : ∀ c a x, x ∈ c → x ∈ f c a)
    {t : Str} {a : α} :
    ∀ {l : List α}, a ∈ l → (∀ c, t ∈ f c a) → ∀ c, t ∈ l.foldl f c := by
  intro l
  induction l with
  | nil => intro h; cases h
  | cons b bs ih =>
    intro hm hs c
    rcases List.mem_cons.mp hm with rfl | hm'
    · exact foldl_mem_mono hf bs (f c a) (hs c)
    · exact ih hm' hs (f c b)

theorem foldl_sorted {α : Type} {f : CandSet → α → CandSet}
    (hf : ∀ c a, SortedSet c → SortedSet (f c a)) :
    ∀ (l : List α) (c : CandSet), SortedSet c → SortedSet (l.foldl f c) := by
  intro l
  induction l with
  | nil => intro c h; simpa using h
  | cons a as ih => intro c h; exact ih (f c a) (hf c a h)

/-! ### The generation steps only grow the collection and keep it sorted -/

theorem combo_suffix_step_mono (b t : Str) :
    ∀ (c : CandSet) (x : Str) (y : Str), y ∈ c → y ∈ combo_suffix_step b t c x := by
  intro c x y h
  simp only [combo_suffix_step, mem_insertStr]
  tauto

theorem combo_info_step_mono (b : Str) :
    ∀ (c : CandSet) (t : Str) (y : Str), y ∈ c → y ∈ combo_info_step b c t := by
  intro c t y h
  simp only [combo_info_step]
  split_ifs with hg
  · exact h
  · exact foldl_mem_mono (combo_suffix_step_mono b t) _ _
      (mem_insertStr_of_mem _ (mem_insertStr_of_mem _ h))

theorem base_suffix_step_mono (b : Str) :
    ∀ (c : CandSet) (x : Str) (y : Str), y ∈ c → y ∈ base_suffix_step b c x := by
  intro c x y h
  simp only [base_suffix_step, mem_insertStr]
  tauto

theorem combo_base_step_mono (T : List Str) :
    ∀ (c : CandSet) (b : Str) (y : Str), y ∈ c → y ∈ combo_base_step T c b := by
  intro c b y h
  simp only [combo_base_step]
  split_ifs with hg
  · exact h
  · exact foldl_mem_mono (base_suffix_step_mono b) _ _
      (foldl_mem_mono (combo_info_step_mono b) _ _ (mem_insertStr_of_mem _ h))

theorem leet_step_mono :
    ∀ (c : CandSet) (w : Str) (y : Str), y ∈ c → y ∈ leet_step c w := by
  intro c w y h
  simp only [leet_step]
  split_ifs with hg hne
  · exact h
  · exact mem_insertStr_of_mem _ (mem_insertStr_of_mem _ h)
  · exact mem_insertStr_of_mem _ h

theorem init_step_mono :
    ∀ (c : CandSet) (w : Str) (y : Str), y ∈ c → y ∈ init_step c w := by
  intro c w y h
  simp only [init_step]
  split_ifs with hg
  · exact mem_insertStr_of_mem _ h
  · exact h

theorem combo_suffix_step_sorted (b t : Str) :
    ∀ (c : CandSet) (x : Str), SortedSet c → SortedSet (combo_suffix_step b t c x) := by
  intro c x h
  simp only [combo_suffix_step]
  repeat apply insertStr_sorted
  exact h

theorem combo_info_step_sorted (b : Str) :
    ∀ (c : CandSet) (t : Str), SortedSet c → SortedSet (combo_info_step b c t) := by
  intro c t h
  simp only [combo_info_step]
  split_ifs with hg
  · exact h
  · exact foldl_sorted (fun c' x => combo_suffix_step_sorted b t c' x) _ _
      (insertStr_sorted (insertStr_sorted h))

theorem base_suffix_step_sorted (b : Str) :
    ∀ (c : CandSet) (x : Str), SortedSet c → SortedSet (base_suffix_step b c x) := by
  intro c x h
  simp only [base_suffix_step]
  exact insertStr_sorted (insertStr_sorted h)

theorem combo_base_step_sorted (T : List Str) :
    ∀ (c : CandSet) (b : Str), SortedSet c → SortedSet (combo_base_step T c b) := by
  intro c b h
  simp only [combo_base_step]
  split_ifs with hg
  · exact h
  · exact foldl_sorted (fun c' x => base_suffix_step_sorted b c' x) _ _
      (foldl_sorted (fun c' t => combo_info_step_sorted b c' t) _ _ (insertStr_sorted h))

theorem leet_step_sorted :
    ∀ (c : CandSet) (w : Str), SortedSet c → SortedSet (leet_step c w) := by
  intro c w h
  simp only [leet_step]
  split_ifs with hg hne
  · exact h
  · exact insertStr_sorted (insertStr_sorted h)
  · exact insertStr_sorted h

theorem init_step_sorted :
    ∀ (c : CandSet) (w : Str), SortedSet c → SortedSet (init_step c w) := by
  intro c w h
  simp only [init_step]
  split_ifs with hg
  · exact insertStr_sorted h
  · exact h

theorem generate_target_combinations_sorted (B T : List Str) (c : CandSet)
    (h : SortedSet c) : SortedSet (generate_target_combinations B T c) :=
  foldl_sorted (fun c' b => combo_base_step_sorted T c' b) B c h

theorem apply_leetspeak_sorted (L : List Str) (c : CandSet) (h : SortedSet c) :
    SortedSet (apply_leetspeak L c) :=
  foldl_sorted leet_step_sorted L c h

/-! ### The leetspeak transform as a single per-character pass -/

theorem replB_cons (a b x : Nat) (xs : Str) :
    replB a b (x :: xs) = replChar a b x :: replB a b xs := rfl

theorem leet_word_nil : leet_word [] = [] := rfl

theorem leet_word_cons (c : Nat) (s : Str) :
    leet_word (c :: s) = leetCharCode c :: leet_word s := by
  simp only [leet_word, replB_cons]
  rfl

theorem leetCharCode_eq (c : Nat) : leetCharCode c = leetChar c := by
  by_cases h1 : c = 101
  · subst h1; rfl
  by_cases h2 : c = 69
  · subst h2; rfl
  by_cases h3 : c = 97
  · subst h3; rfl
  by_cases h4 : c = 65
  · subst h4; rfl
  by_cases h5 : c = 111
  · subst h5; rfl
  by_cases h6 : c = 79
  · subst h6; rfl
  by_cases h7 : c = 115
  · subst h7; rfl
  by_cases h8 : c = 83
  · subst h8; rfl
  by_cases h9 : c = 105
  · subst h9; rfl
  by_cases h10 : c = 73
  · subst h10; rfl
  by_cases h11 : c = 116
  · subst h11; rfl
  by_cases h12 : c = 84
  · subst h12; rfl
  have e1 : replChar 101 51 c = c := if_neg h1
  rw [leetCharCode, e1]
  have e2 : replChar 69 51 c = c := if_neg h2
  rw [e2]
  have e3 : replChar 97 64 c = c := if_neg h3
  rw [e3]
  have e4 : replChar 65 64 c = c := if_neg h4
  rw [e4]
  have e5 : replChar 111 48 c = c := if_neg h5
  rw [e5]
  have e6 : replChar 79 48 c = c := if_neg h6
  rw [e6]
  have e7 : replChar 115 36 c = c := if_neg h7
  rw [e7]
  have e8 : replChar 83 36 c = c := if_neg h8
  rw [e8]
  have e9 : replChar 105 49 c = c := if_neg h9
  rw [e9]
  have e10 : replChar 73 49 c = c := if_neg h10
  rw [e10]
  have e11 : replChar 116 55 c = c := if_neg h11
  rw [e11]
  have e12 : replChar 84 55 c = c := if_neg h12
  rw [e12]
  simp [leetChar, h1, h2, h3, h4, h5, h6, h7, h8, h9, h10, h11, h12]

theorem leet_word_map (s : Str) : leet_word s = s.map leetChar := by
  induction s with
  | nil => rfl
  | cons c cs ih => rw [leet_word_cons, List.map_cons, ih, leetCharCode_eq]

theorem leetChar_idem (c : Nat) : leetChar (leetChar c) = leetChar c := by
  by_cases h1 : c = 101
  · subst h1; rfl
  by_cases h2 : c = 69
  · subst h2; rfl
  by_cases h3 : c = 97
  · subst h3; rfl
  by_cases h4 : c = 65
  · subst h4; rfl
  by_cases h5 : c = 111
  · subst h5; rfl
  by_cases h6 : c = 79
  · subst h6; rfl
  by_cases h7 : c = 115
  · subst h7; rfl
  by_cases h8 : c = 83
  · subst h8; rfl
  by_cases h9 : c = 105
  · subst h9; rfl
  by_cases h10 : c = 73
  · subst h10; rfl
  by_cases h11 : c = 116
  · subst h11; rfl
  by_cases h12 : c = 84
  · subst h12; rfl
  have hc : leetChar c = c := by
    simp [leetChar, h1, h2, h3, h4, h5, h6, h7, h8, h9, h10, h11, h12]
  rw [hc, hc]

/-! ### Membership introduction for the combination generator -/

theorem usable_guard {w : Str} (h : usable w = true) :
    (!(is_printable w) || w.isEmpty) = false := by
  simp only [usable, Bool.and_eq_true, Bool.not_eq_true'] at h
  simp [h.1, h.2]

theorem mem_combo_suffix_step (b t x : Str) (c : CandSet) (y : Str)
    (hy : y = b ++ t ++ x ∨ y = t ++ b ++ x ∨ y = b ++ x ++ t ∨ y = t ++ x ++ b ∨
          y = capitalize b ++ capitalize t ∨ y = capitalize t ++ capitalize b ∨
          y = capitalize b ++ t ∨ y = t ++ capitalize b ∨
          y = capitalize b ++ capitalize t ++ x ∨ y = capitalize t ++ capitalize b ++ x ∨
          y = capitalize b ++ t ++ x ∨ y = t ++ capitalize b ++ x) :
    y ∈ combo_suffix_step b t c x := by
  simp only [combo_suffix_step, mem_insertStr]
  tauto

theorem mem_combo_info_step (b t : Str) (c : CandSet) (y : Str) (hut : usable t = true)
    (hy : y = b ++ t ∨ y = t ++ b ∨
          ∃ x ∈ common_suffixes,
            y = b ++ t ++ x ∨ y = t ++ b ++ x ∨ y = b ++ x ++ t ∨ y = t ++ x ++ b ∨
            y = capitalize b ++ capitalize t ∨ y = capitalize t ++ capitalize b ∨
            y = capitalize b ++ t ∨ y = t ++ capitalize b ∨
            y = capitalize b ++ capitalize t ++ x ∨ y = capitalize t ++ capitalize b ++ x ∨
            y = capitalize b ++ t ++ x ∨ y = t ++ capitalize b ++ x) :
    y ∈ combo_info_step b c t := by
  simp only [combo_info_step, usable_guard hut, Bool.false_eq_true, if_false]
  rcases hy with rfl | rfl | ⟨x, hx, hx12⟩
  · exact foldl_mem_mono (combo_suffix_step_mono b t) _ _
      (mem_insertStr_of_mem _ (mem_insertStr_self _ _))
  · exact foldl_mem_mono (combo_suffix_step_mono b t) _ _ (mem_insertStr_self _ _)
  · exact foldl_mem_of_step (combo_suffix_step_mono b t) hx
      (fun c' => mem_combo_suffix_step b t x c' _ hx12) _

theorem mem_base_suffix_step (b x : Str) (c : CandSet) (y : Str)
    (hy : y = b ++ x ∨ y = capitalize b ++ x) :
    y ∈ base_suffix_step b c x := by
  simp only [base_suffix_step, mem_insertStr]
  tauto

theorem mem_combo_base_step (T : List Str) (b : Str) (c : CandSet) (y : Str)
    (hub : usable b = true)
    (hy : y = b ∨
          (∃ x ∈ common_suffixes, y = b ++ x ∨ y = capitalize b ++ x) ∨
          ∃ t ∈ T, usable t = true ∧
            (y = b ++ t ∨ y = t ++ b ∨
             ∃ x ∈ common_suffixes,
               y = b ++ t ++ x ∨ y = t ++ b ++ x ∨ y = b ++ x ++ t ∨ y = t ++ x ++ b ∨
               y = capitalize b ++ capitalize t ∨ y = capitalize t ++ capitalize b ∨
               y = capitalize b ++ t ∨ y = t ++ capitalize b ∨
               y = capitalize b ++ capitalize t ++ x ∨ y = capitalize t ++ capitalize b ++ x ∨
               y = capitalize b ++ t ++ x ∨ y = t ++ capitalize b ++ x)) :
    y ∈ combo_base_step T c b := by
  simp only [combo_base_step, usable_guard hub, Bool.false_eq_true, if_false]
  rcases hy with rfl | ⟨x, hx, hy2⟩ | ⟨t, ht, hut, hyt⟩
  · exact foldl_mem_mono (base_suffix_step_mono _) _ _
      (foldl_mem_mono (combo_info_step_mono _) _ _ (mem_insertStr_self _ _))
  · exact foldl_mem_of_step (base_suffix_step_mono b) hx
      (fun c' => mem_base_suffix_step b x c' _ hy2) _
  · exact foldl_mem_mono (base_suffix_step_mono b) _ _
      (foldl_mem_of_step (combo_info_step_mono b) ht
        (fun c' => mem_combo_info_step b t c' _ hut hyt) _)

theorem mem_generate_target_combinations (B T : List Str) (b : Str) (c : CandSet) (y : Str)
    (hb : b ∈ B) (hub : usable b = true)
    (hy : y = b ∨
          (∃ x ∈ common_suffixes, y = b ++ x ∨ y = capitalize b ++ x) ∨
          ∃ t ∈ T, usable t = true ∧
            (y = b ++ t ∨ y = t ++ b ∨
             ∃ x ∈ common_suffixes,
               y = b ++ t ++ x ∨ y = t ++ b ++ x ∨ y = b ++ x ++ t ∨ y = t ++ x ++ b ∨
               y = capitalize b ++ capitalize t ∨ y = capitalize t ++ capitalize b ∨
               y = capitalize b ++ t ∨ y = t ++ capitalize b ∨
               y = capitalize b ++ capitalize t ++ x ∨ y = capitalize t ++ capitalize b ++ x ∨
               y = capitalize b ++ t ++ x ∨ y = t ++ capitalize b ++ x)) :
    y ∈ generate_target_combinations B T c :=
  foldl_mem_of_step (combo_base_step_mono T) hb
    (fun c' => mem_combo_base_step T b c' _ hub hy) c

theorem mem_run_pipeline_of_gtc (B T : List Str) (y : Str) (hT : T ≠ [])
    (h : ∀ c : CandSet, y ∈ generate_target_combinations B T c) :
    y ∈ run_pipeline B T := by
  have hTe : T.isEmpty = false := by
    cases T with
    | nil => exact absurd rfl hT
    | cons t ts => rfl
  simp only [run_pipeline, hTe, Bool.false_eq_true, if_false]
  exact foldl_mem_mono leet_step_mono _ _ (h _)

/-! ### Size bound of one leetspeak pass -/

theorem leet_step_length {c : CandSet} (w : Str) (hs : SortedSet c) (hw : w ∈ c) :
    (leet_step c w).length ≤ c.length + 1 := by
  simp only [leet_step]
  split_ifs with hg hne
  · omega
  · rw [insertStr_of_mem hs hw]
    exact insertStr_length _ _
  · rw [insertStr_of_mem hs hw]
    omega

theorem leet_fold_length :
    ∀ (L : List Str) (c : CandSet), SortedSet c → (∀ w ∈ L, w ∈ c) →
      (apply_leetspeak L c).length ≤ c.length + L.length := by
  intro L
  induction L with
  | nil => intro c _ _; simp [apply_leetspeak]
  | cons w ws ih =>
    intro c hs hmem
    have hw : w ∈ c := hmem w (by simp)
    have hws : ∀ u ∈ ws, u ∈ leet_step c w :=
      fun u hu => leet_step_mono c w u (hmem u (by simp [hu]))
    have hs' : SortedSet (leet_step c w) := leet_step_sorted c w hs
    have h1 : (apply_leetspeak ws (leet_step c w)).length ≤ (leet_step c w).length + ws.length :=
      ih _ hs' hws
    have h2 : (leet_step c w).length ≤ c.length + 1 := leet_step_length w hs hw
    have h3 : apply_leetspeak (w :: ws) c = apply_leetspeak ws (leet_step c w) := rfl
    rw [h3]
    simp only [List.length_cons]
    omega

/-- The final collection of the pipeline is strictly sorted. -/
theorem run_pipeline_sortedSet (B T : List Str) : SortedSet (run_pipeline B T) := by
  have h0 : SortedSet (B.foldl init_step []) :=
    foldl_sorted init_step_sorted B [] List.Pairwise.nil
  simp only [run_pipeline]
  apply apply_leetspeak_sorted
  split_ifs with hT
  · exact h0
  · exact generate_target_combinations_sorted B T _ h0

/-! ### Claim theorems -/

/-- C1: the emitted candidate sequence is strictly increasing under byte-wise
lexicographic comparison (consecutive elements satisfy `lexLt`), and hence
contains no two equal strings, for every base-word list and target-info list. -/
theorem candidate_stream_strictly_increasing (B T : List Str) :
    List.Chain' (fun a b => lexLt a b = true) (run_pipeline B T) ∧
    (run_pipeline B T).Nodup := by
  have hp := run_pipeline_sortedSet B T
  exact ⟨hp.chain', hp.imp (fun h => lexLt_ne h)⟩

set_option maxRecDepth 10000 in
/-- C2 counterexample: for `B = ["blue"]`, `T = ["acme"]` the final collection
does not contain `"acme"` itself — no code path inserts a target-info word
alone, contradicting the claimed example member list. -/
theorem acme_not_in_output :
    bytes "acme" ∉ run_pipeline [bytes "blue"] [bytes "acme"] := by decide

/-- C2 (amended): for every usable base word `b` in `B`, usable info word `t`
in `T` and suffix `x`, the final collection contains `b`, the concatenations
`b+t`, `t+b`, their suffixed forms `b+t+x`, `t+b+x`, `b+x+t`, `t+x+b`, the
four capitalization variants and their suffixed forms, and `b+x` and
`Cap(b)+x` — but not the info word `t` by itself, which the claimed example
wrongly listed. -/
theorem combination_completeness (B T : List Str) (b t x : Str)
    (hb : b ∈ B) (hub : usable b = true) (ht : t ∈ T) (hut : usable t = true)
    (hx : x ∈ common_suffixes) :
    b ∈ run_pipeline B T ∧
    b ++ t ∈ run_pipeline B T ∧
    t ++ b ∈ run_pipeline B T ∧
    b ++ t ++ x ∈ run_pipeline B T ∧
    t ++ b ++ x ∈ run_pipeline B T ∧
    b ++ x ++ t ∈ run_pipeline B T ∧
    t ++ x ++ b ∈ run_pipeline B T ∧
    capitalize b ++ capitalize t ∈ run_pipeline B T ∧
    capitalize t ++ capitalize b ∈ run_pipeline B T ∧
    capitalize b ++ t ∈ run_pipeline B T ∧
    t ++ capitalize b ∈ run_pipeline B T ∧
    capitalize b ++ capitalize t ++ x ∈ run_pipeline B T ∧
    capitalize t ++ capitalize b ++ x ∈ run_pipeline B T ∧
    capitalize b ++ t ++ x ∈ run_pipeline B T ∧
    t ++ capitalize b ++ x ∈ run_pipeline B T ∧
    b ++ x ∈ run_pipeline B T ∧
    capitalize b ++ x ∈ run_pipeline B T := by
  have hT : T ≠ [] := by
    intro h
    subst h
    cases ht
  refine ⟨?_, ?_, ?_, ?_, ?_, ?_, ?_, ?_, ?_, ?_, ?_, ?_, ?_, ?_, ?_, ?_, ?_⟩ <;>
  · apply mem_run_pipeline_of_gtc B T _ hT
    intro c
    apply mem_generate_target_combinations B T b c _ hb hub
    first
      | exact Or.inl rfl
      | exact Or.inr (Or.inl ⟨x, hx, Or.inl rfl⟩)
      | exact Or.inr (Or.inl ⟨x, hx, Or.inr rfl⟩)
      | exact Or.inr (Or.inr ⟨t, ht, hut, Or.inl rfl⟩)
      | exact Or.inr (Or.inr ⟨t, ht, hut, Or.inr (Or.inl rfl)⟩)
      | exact Or.inr (Or.inr ⟨t, ht, hut, Or.inr (Or.inr ⟨x, hx, by simp⟩)⟩)

/-- C2 witness: the amended claim applied to the spec's example inputs. -/
theorem combination_completeness_witness :
    (bytes "blue" ∈ [bytes "blue"] ∧ usable (bytes "blue") = true ∧
     bytes "acme" ∈ [bytes "acme"] ∧ usable (bytes "acme") = true ∧
     bytes "2024" ∈ common_suffixes) ∧
    bytes "blue" ++ bytes "acme" ++ bytes "2024" ∈
      run_pipeline [bytes "blue"] [bytes "acme"] := by
  refine ⟨⟨by decide, by decide, by decide, by decide, by decide⟩, ?_⟩
  exact (combination_completeness [bytes "blue"] [bytes "acme"]
    (bytes "blue") (bytes "acme") (bytes "2024")
    (by decide) (by decide) (by decide) (by decide) (by decide)).2.2.2.1

/-- C3 counterexample: with `B = ["blue"]` and an empty target-info list,
`main` skips `generate_target_combinations` entirely, so the base + suffix
variant `"blue2024"` is absent from the final collection, contrary to the
claim. -/
theorem suffix_variant_missing_when_no_target :
    bytes "blue" ++ bytes "2024" ∉ run_pipeline [bytes "blue"] [] := by decide

/-- C3 (amended): the pipeline skips the combination generator when the
target-info list is empty, so base + suffix variants do not reach the final
collection; the generator function itself, however, when invoked with an
empty target-info list, does insert `b+x` and `Cap(b)+x` for every usable
base word `b` and suffix `x`. -/
theorem empty_target_generator_variants (B : List Str) (b x : Str) (c : CandSet)
    (hb : b ∈ B) (hub : usable b = true) (hx : x ∈ common_suffixes) :
    b ++ x ∈ generate_target_combinations B [] c ∧
    capitalize b ++ x ∈ generate_target_combinations B [] c :=
  ⟨mem_generate_target_combinations B [] b c _ hb hub (Or.inr (Or.inl ⟨x, hx, Or.inl rfl⟩)),
   mem_generate_target_combinations B [] b c _ hb hub (Or.inr (Or.inl ⟨x, hx, Or.inr rfl⟩))⟩

/-- C3 witness: the amended claim at the spec's example input. -/
theorem empty_target_generator_variants_witness :
    (bytes "blue" ∈ [bytes "blue"] ∧ usable (bytes "blue") = true ∧
     bytes "2024" ∈ common_suffixes) ∧
    bytes "blue" ++ bytes "2024" ∈ generate_target_combinations [bytes "blue"] [] [] := by
  refine ⟨⟨by decide, by decide, by decide⟩, ?_⟩
  exact (empty_target_generator_variants [bytes "blue"] (bytes "blue") (bytes "2024") []
    (by decide) (by decide) (by decide)).1

/-- C4: the leetspeak transform substitutes every occurrence of e/E, a/A,
o/O, s/S, i/I, t/T in one pass per the fixed table and leaves every other
byte unchanged; on `"Secret"` the pass adds exactly the new member
`"$3cr37"`. -/
theorem leet_transliteration_correct :
    (∀ s : Str, leet_word s = s.map leetChar) ∧
    apply_leetspeak [bytes "Secret"] [bytes "Secret"] =
      [bytes "$3cr37", bytes "Secret"] :=
  ⟨leet_word_map, by decide⟩

/-- C5: the leetspeak substitution is idempotent as a string function:
applying the full table to its own output returns the output unchanged, so a
second pass can generate nothing beyond first-pass variants. -/
theorem leet_idempotent (w : Str) : leet_word (leet_word w) = leet_word w := by
  rw [leet_word_map (leet_word w), leet_word_map w, List.map_map]
  exact List.map_congr_left (fun c _ => leetChar_idem c)

/-- C6: the pipeline is a pure function of its inputs — runs on
character-identical base-word and target-info lists produce byte-identical
candidate sequences (same members, same order). -/
theorem pipeline_deterministic (B₁ T₁ B₂ T₂ : List Str)
    (hB : B₁ = B₂) (hT : T₁ = T₂) :
    run_pipeline B₁ T₁ = run_pipeline B₂ T₂ := by
  rw [hB, hT]

/-- C6 witness: determinism at a concrete input. -/
theorem pipeline_deterministic_witness :
    [bytes "blue"] = [bytes "blue"] ∧ ([bytes "acme"] : List Str) = [bytes "acme"] ∧
    run_pipeline [bytes "blue"] [bytes "acme"] = run_pipeline [bytes "blue"] [bytes "acme"] :=
  ⟨rfl, rfl, pipeline_deterministic [bytes "blue"] [bytes "acme"]
    [bytes "blue"] [bytes "acme"] rfl rfl⟩

/-- C7: running the transliteration pass over a snapshot of the collection
(its contents at invocation time, as `main` does) at most doubles the
collection's cardinality: each snapshot element contributes at most one new
differing variant. -/
theorem leet_pass_size_bound (c : CandSet) (h : SortedSet c) :
    (apply_leetspeak c c).length ≤ 2 * c.length := by
  have hb := leet_fold_length c c h (fun w hw => hw)
  omega

/-- C7 witness: the size bound at a concrete sorted collection. -/
theorem leet_pass_size_bound_witness :
    SortedSet [bytes "ab"] ∧
    (apply_leetspeak [bytes "ab"] [bytes "ab"]).length ≤ 2 * [bytes "ab"].length :=
  ⟨by simp [SortedSet], leet_pass_size_bound [bytes "ab"] (by simp [SortedSet])⟩

/-- C8 counterexample: `is_printable` (the printability predicate, source
lines 19-25) returns `true` on the empty string, not `false` as claimed —
`std::all_of` is vacuously true on an empty range. -/
theorem is_printable_empty_true : ¬ (is_printable [] = false) := by decide

/-- C8 (amended): `is_printable` itself is true on the empty string;
emptiness is rejected separately at every call site, and the combined gate
(printable and non-empty) accepts exactly the non-empty strings all of whose
bytes lie in the printable range 0x20..0x7E. -/
theorem usable_gate_characterization (s : Str) :
    is_printable [] = true ∧
    (usable s = true ↔ s ≠ [] ∧ ∀ c ∈ s, 32 ≤ c ∧ c ≤ 126) := by
  refine ⟨rfl, ?_⟩
  simp only [usable, is_printable, Bool.and_eq_true, List.all_eq_true,
    Bool.not_eq_true', List.isEmpty_eq_false, decide_eq_true_eq]
  constructor
  · rintro ⟨h1, h2⟩
    exact ⟨h2, fun c hc => by simpa using h1 c hc⟩
  · rintro ⟨h1, h2⟩
    exact ⟨fun c hc => by simpa using h2 c hc, h1⟩

/-- C9: both generation operations only insert — every string present in the
collection before a call to the combination generator or the transliteration
transformer is still present afterwards, for any inputs. -/
theorem collection_growth_only (B T L : List Str) (c : CandSet) (y : Str)
    (h : y ∈ c) :
    y ∈ generate_target_combinations B T c ∧ y ∈ apply_leetspeak L c :=
  ⟨foldl_mem_mono (combo_base_step_mono T) B c h,
   foldl_mem_mono leet_step_mono L c h⟩

/-- C9 witness: growth-only at a concrete prior member. -/
theorem collection_growth_only_witness :
    bytes "w" ∈ [bytes "w"] ∧
    bytes "w" ∈ generate_target_combinations [bytes "b"] [bytes "t"] [bytes "w"] ∧
    bytes "w" ∈ apply_leetspeak [bytes "x"] [bytes "w"] := by
  refine ⟨by decide, ?_, ?_⟩
  · exact (collection_growth_only [bytes "b"] [bytes "t"] [bytes "x"]
      [bytes "w"] (bytes "w") (by decide)).1
  · exact (collection_growth_only [bytes "b"] [bytes "t"] [bytes "x"]
      [bytes "w"] (bytes "w") (by decide)).2

/-- C10: a word that is empty or contains a non-printable character is
silently skipped by every generator loop — the loop body leaves the
collection exactly unchanged (the word is never inserted and produces no
combination or substitution variant), and no failure is possible. -/
theorem unusable_words_skipped (w : Str)
    (h : is_printable w = false ∨ w = []) :
    (∀ T c, combo_base_step T c w = c) ∧
    (∀ b c, combo_info_step b c w = c) ∧
    (∀ c, leet_step c w = c) ∧
    (∀ c, init_step c w = c) := by
  have hg : (!(is_printable w) || w.isEmpty) = true := by
    rcases h with h | rfl
    · simp [h]
    · simp
  have hg2 : (is_printable w && !w.isEmpty) = false := by
    rcases h with h | rfl
    · simp [h]
    · simp
  refine ⟨fun T c => ?_, fun b c => ?_, fun c => ?_, fun c => ?_⟩
  · simp [combo_base_step, hg]
  · simp [combo_info_step, hg]
  · simp [leet_step, hg]
  · simp [init_step, hg2]

/-- C10 witness: a non-printable word (a lone newline byte) is skipped by
each generator step. -/
theorem unusable_words_skipped_witness :
    (is_printable [10] = false ∨ ([10] : Str) = []) ∧
    combo_base_step [bytes "t"] [bytes "a"] [10] = [bytes "a"] ∧
    leet_step [bytes "a"] [10] = [bytes "a"] := by
  refine ⟨Or.inl (by decide), ?_, ?_⟩
  · exact (unusable_words_skipped [10] (Or.inl (by decide))).1 [bytes "t"] [bytes "a"]
  · exact (unusable_words_skipped [10] (Or.inl (by decide))).2.2.1 [bytes "a"]
